import Mathlib

/-!
A shallow embedding of the `rq` command-line HTTP tool (files `src/http.rs`
and `src/cli.rs`).  Rust strings are modelled as `List Char` (the sequence
produced by `str::chars()`); `str::len()` (a byte count) is modelled by
summing the UTF-8 sizes of the characters.
-/

namespace Rq

/-- Models Rust `char::is_whitespace`: the Unicode White_Space property. -/
def rustIsWhitespace (c : Char) : Bool :=
  let n := c.toNat
  (0x09 ≤ n && n ≤ 0x0D) || n = 0x20 || n = 0x85 || n = 0xA0 || n = 0x1680 ||
    (0x2000 ≤ n && n ≤ 0x200A) || n = 0x2028 || n = 0x2029 || n = 0x202F ||
    n = 0x205F || n = 0x3000

/-- Models Rust `str::len()`: the number of bytes of the UTF-8 encoding. -/
def utf8Len (s : List Char) : Nat :=
  (s.map Char.utf8Size).sum

/-- Models `s.chars().filter(|c| !c.is_whitespace()).collect::<String>()`
from `maybe_json` in `src/http.rs`. -/
def rustRemoveWhitespace (s : List Char) : List Char :=
  s.filter (fun c => !rustIsWhitespace c)

/-- Models Rust `char::to_uppercase` on the ASCII range (characters outside
`a`..`z` are returned unchanged; the inputs this program compares against
are all ASCII). Used by `HttpMethod::from_str` via `str::to_uppercase`. -/
def rustToUppercaseChar (c : Char) : Char :=
  if 0x61 ≤ c.toNat && c.toNat ≤ 0x7A then Char.ofNat (c.toNat - 0x20) else c

/-- Models Rust `char::to_lowercase` on the ASCII range (characters outside
`A`..`Z` are returned unchanged). Used by `ContentType::from_str` via
`str::to_lowercase`. -/
def rustToLowercaseChar (c : Char) : Char :=
  if 0x41 ≤ c.toNat && c.toNat ≤ 0x5A then Char.ofNat (c.toNat + 0x20) else c

/-- The error enum of `src/http.rs`. -/
inductive Error where
  | UnknownMethod (s : List Char)
  | UnknownContentType (s : List Char)
  deriving DecidableEq, Repr

/-- The `HttpMethod` enum of `src/http.rs`. -/
inductive HttpMethod where
  | Get | Post | Put | Delete | Patch | Head | Options
  deriving DecidableEq, Repr

/-- `impl FromStr for HttpMethod` in `src/http.rs`: match the uppercased
input against the seven method tokens; any other (uppercased) text is
embedded into an `UnknownMethod` error. -/
def HttpMethod.from_str (s : List Char) : Except Error HttpMethod :=
  let u := s.map rustToUppercaseChar
  if u = "GET".toList then Except.ok HttpMethod.Get
  else if u = "POST".toList then Except.ok HttpMethod.Post
  else if u = "PUT".toList then Except.ok HttpMethod.Put
  else if u = "DELETE".toList then Except.ok HttpMethod.Delete
  else if u = "PATCH".toList then Except.ok HttpMethod.Patch
  else if u = "HEAD".toList then Except.ok HttpMethod.Head
  else if u = "OPTIONS".toList then Except.ok HttpMethod.Options
  else Except.error (Error.UnknownMethod u)

/-- `impl Display for HttpMethod` in `src/http.rs`. -/
def HttpMethod.fmt : HttpMethod → List Char
  | HttpMethod.Get => "GET".toList
  | HttpMethod.Post => "POST".toList
  | HttpMethod.Put => "PUT".toList
  | HttpMethod.Delete => "DELETE".toList
  | HttpMethod.Patch => "PATCH".toList
  | HttpMethod.Head => "HEAD".toList
  | HttpMethod.Options => "OPTIONS".toList

/-- The `ContentType` enum of `src/http.rs`. -/
inductive ContentType where
  | Text | Json | Form | Multipart
  deriving DecidableEq, Repr

/-- `impl FromStr for ContentType` in `src/http.rs`: match the lowercased
input against the aliases and exact MIME tokens; any other (lowercased)
text is embedded into an `UnknownContentType` error. -/
def ContentType.from_str (s : List Char) : Except Error ContentType :=
  let l := s.map rustToLowercaseChar
  if l = "text".toList ∨ l = "text/plain".toList then Except.ok ContentType.Text
  else if l = "json".toList ∨ l = "application/json".toList then Except.ok ContentType.Json
  else if l = "form".toList ∨ l = "application/x-www-form-urlencoded".toList then
    Except.ok ContentType.Form
  else if l = "file".toList ∨ l = "multipart/form-data".toList then
    Except.ok ContentType.Multipart
  else Except.error (Error.UnknownContentType l)

/-- `impl Display for ContentType` in `src/http.rs`. -/
def ContentType.fmt : ContentType → List Char
  | ContentType.Text => "text/plain".toList
  | ContentType.Json => "application/json".toList
  | ContentType.Form => "application/x-www-form-urlencoded".toList
  | ContentType.Multipart => "multipart/form-data".toList

/-- `'0'..='9'`, the digit pattern used by `maybe_url_encoded`. -/
def isRustDigit (c : Char) : Bool :=
  0x30 ≤ c.toNat && c.toNat ≤ 0x39

/-- The characters accepted directly in a key by `maybe_url_encoded`
(`'A'..='Z' | 'a'..='z' | '0'..='9' | '-' | '.' | '_' | '~'` plus `'+'`). -/
def isUrlKeyChar (c : Char) : Bool :=
  (0x41 ≤ c.toNat && c.toNat ≤ 0x5A) || (0x61 ≤ c.toNat && c.toNat ≤ 0x7A) ||
    isRustDigit c || c = '-' || c = '.' || c = '_' || c = '~' || c = '+'

/-- The `take_while` loop of `maybe_url_encoded` in `src/http.rs`:
threading the mutable `digits_left` counter, it returns the number of
characters consumed (`key_len`) together with the final value of
`digits_left`. -/
def urlKeyScan : List Char → Nat → Nat × Nat
  | [], d => (0, d)
  | c :: rest, d =>
    if 0 < d then
      if isRustDigit c then
        let p := urlKeyScan rest (d - 1)
        (p.1 + 1, p.2)
      else (0, d)
    else if isUrlKeyChar c then
      let p := urlKeyScan rest 0
      (p.1 + 1, p.2)
    else if c = '%' then
      let p := urlKeyScan rest 2
      (p.1 + 1, p.2)
    else (0, d)

/-- `maybe_url_encoded` in `src/http.rs`: scan a key, fail on an empty key
or an incomplete percent escape, then require a literal `=` right after
the consumed run (`Some('=') == s.chars().nth(key_len)`). -/
def maybe_url_encoded (s : List Char) : Bool :=
  let p := urlKeyScan s 0
  if p.1 = 0 || 0 < p.2 then false
  else decide (s[p.1]? = some '=')

/-- The `take_while` loop of `maybe_json` in `src/http.rs`, threading the
four mutable flags (`open_bracket_found`, `open_quote_found`,
`close_quote_found`, `colon_found`) and returning their final values. -/
def jsonScanAux : List Char → Bool → Bool → Bool → Bool → Bool × Bool × Bool × Bool
  | [], ob, oq, cq, co => (ob, oq, cq, co)
  | c :: rest, ob, oq, cq, co =>
    if rustIsWhitespace c then jsonScanAux rest ob oq cq co
    else if !ob then
      if c = '{' then jsonScanAux rest true oq cq co else (ob, oq, cq, co)
    else if !oq then
      if c = '"' then jsonScanAux rest ob true cq co else (ob, oq, cq, co)
    else if !cq then
      if c = '"' then jsonScanAux rest ob oq true co else jsonScanAux rest ob oq cq co
    else if !co then
      if c = ':' then jsonScanAux rest ob oq cq true else (ob, oq, cq, co)
    else (ob, oq, cq, co)

/-- `maybe_json` in `src/http.rs`: the short empty-object special case
(`s.len() < 20` bytes and the whitespace-stripped body equals the
two-character brace pair), then the flag-threading scan. -/
def maybe_json (s : List Char) : Bool :=
  if utf8Len s < 20 ∧ rustRemoveWhitespace s = ['{', '}'] then true
  else
    let r := jsonScanAux s false false false false
    r.1 && r.2.1 && r.2.2.1 && r.2.2.2

/-- Models Rust `str::starts_with` with a string pattern, on characters
(the patterns used by this program are ASCII, so byte-wise and
character-wise agreement coincide). -/
def startsWith : List Char → List Char → Bool
  | _, [] => true
  | [], _ :: _ => false
  | c :: cs, p :: ps => c = p && startsWith cs ps

/-- `is_multipart` in `src/http.rs`: `s.starts_with("-----")`. -/
def is_multipart (s : List Char) : Bool :=
  startsWith s (List.replicate 5 '-')

/-- `guess_content_type` in `src/http.rs`. -/
def guess_content_type (s : List Char) : ContentType :=
  if maybe_json s then ContentType.Json
  else if maybe_url_encoded s then ContentType.Form
  else if is_multipart s then ContentType.Multipart
  else ContentType.Text

/-- The `CliArgs` struct of `src/cli.rs` (after structopt parsing, which is
outside the core). -/
structure CliArgs where
  method : HttpMethod
  content_type : Option ContentType
  data : Option (List Char)
  url : List Char

/-- The body of `args()` in `src/cli.rs` after `CliArgs::from_args()`:
guess the content type when a body is present and none was supplied, then
prepend `http://` to a URL that starts with neither `http://` nor
`https://`.  Total by construction: it never fails. -/
def args (a : CliArgs) : CliArgs :=
  let ct :=
    match a.data with
    | some body =>
      match a.content_type with
      | none => some (guess_content_type body)
      | some c => some c
    | none => a.content_type
  let url :=
    if !startsWith a.url "http://".toList && !startsWith a.url "https://".toList then
      "http://".toList ++ a.url
    else a.url
  { a with content_type := ct, url := url }

/-! Spec-side definitions, used to state the refinement claims about the
two scanners.  They follow the spec's words and are compared with the
definitions above, which were translated from the source. -/

/-- The explicit scanner states named by the spec for `looks_like_json`:
seek the opening brace, seek the quote opening the key, inside the key
awaiting the closing quote, seek the colon; plus an accepting and a
rejecting sink. -/
inductive JsonScanState where
  | seekBrace | seekQuote | inKey | seekColon | matched | failed
  deriving DecidableEq, Repr

/-- One step of the spec's scanner: whitespace is skipped in every state;
otherwise the character either advances the expected sub-pattern, is
absorbed inside the key, or rejects. -/
def jsonStep (st : JsonScanState) (c : Char) : JsonScanState :=
  if rustIsWhitespace c then st
  else
    match st with
    | JsonScanState.seekBrace => if c = '{' then JsonScanState.seekQuote else JsonScanState.failed
    | JsonScanState.seekQuote => if c = '"' then JsonScanState.inKey else JsonScanState.failed
    | JsonScanState.inKey => if c = '"' then JsonScanState.seekColon else JsonScanState.inKey
    | JsonScanState.seekColon => if c = ':' then JsonScanState.matched else JsonScanState.failed
    | JsonScanState.matched => JsonScanState.matched
    | JsonScanState.failed => JsonScanState.failed

/-- The spec's description of the `looks_like_json` scan: run the state
machine over the body and accept exactly when brace, open quote, close
quote and colon were all found in order. -/
def jsonSpecAccepts (s : List Char) : Bool :=
  decide (s.foldl jsonStep JsonScanState.seekBrace = JsonScanState.matched)

/-- The flag assignment of the source scanner that corresponds to each
spec state (the `failed` sink has no flag counterpart; the source encodes
failure by stopping the scan with the flags of the state it was in). -/
def stFlags : JsonScanState → Bool × Bool × Bool × Bool
  | JsonScanState.seekBrace => (false, false, false, false)
  | JsonScanState.seekQuote => (true, false, false, false)
  | JsonScanState.inKey => (true, true, false, false)
  | JsonScanState.seekColon => (true, true, true, false)
  | JsonScanState.matched => (true, true, true, true)
  | JsonScanState.failed => (true, true, true, true)

/-- The conjunction of the four scanner flags, the value `maybe_json`
returns after the scan. -/
def allFour (r : Bool × Bool × Bool × Bool) : Bool :=
  r.1 && r.2.1 && r.2.2.1 && r.2.2.2

/-- The spec's description of a URL-encoded key: a sequence of unreserved
key characters in which every percent sign is followed by exactly two
ASCII digits. -/
def validKeyChars : List Char → Bool
  | [] => true
  | c :: rest =>
    if c = '%' then
      match rest with
      | c1 :: c2 :: rest2 => isRustDigit c1 && isRustDigit c2 && validKeyChars rest2
      | _ => false
    else isUrlKeyChar c && validKeyChars rest

/-! Helper lemmas about the JSON scanner. -/

theorem jsonStep_of_ws {c : Char} (h : rustIsWhitespace c = true) (st : JsonScanState) :
    jsonStep st c = st := by
  unfold jsonStep
  rw [if_pos h]

theorem jsonStep_matched (c : Char) :
    jsonStep JsonScanState.matched c = JsonScanState.matched := by
  unfold jsonStep
  split <;> rfl

theorem jsonStep_failed (c : Char) :
    jsonStep JsonScanState.failed c = JsonScanState.failed := by
  unfold jsonStep
  split <;> rfl

theorem foldl_jsonStep_matched (s : List Char) :
    s.foldl jsonStep JsonScanState.matched = JsonScanState.matched := by
  induction s with
  | nil => rfl
  | cons c t ih => rw [List.foldl_cons, jsonStep_matched, ih]

theorem foldl_jsonStep_failed (s : List Char) :
    s.foldl jsonStep JsonScanState.failed = JsonScanState.failed := by
  induction s with
  | nil => rfl
  | cons c t ih => rw [List.foldl_cons, jsonStep_failed, ih]

/-- The flag-threading scan of the source agrees, state by state, with the
spec's state machine. -/
theorem jsonScanAux_toMachine :
    ∀ (s : List Char) (st : JsonScanState), st ≠ JsonScanState.failed →
      (allFour (jsonScanAux s (stFlags st).1 (stFlags st).2.1 (stFlags st).2.2.1
          (stFlags st).2.2.2) = true ↔
        s.foldl jsonStep st = JsonScanState.matched) := by
  intro s
  induction s with
  | nil =>
    intro st hst
    cases st <;> simp_all [jsonScanAux, allFour, stFlags]
  | cons c t ih =>
    intro st hst
    by_cases hws : rustIsWhitespace c = true
    · have hstep : jsonStep st c = st := jsonStep_of_ws hws st
      cases st <;>
        · rw [List.foldl_cons, hstep]
          simp only [stFlags, jsonScanAux, hws, if_true]
          exact ih _ hst
    · cases st with
      | seekBrace =>
        by_cases hc : c = '{'
        · rw [List.foldl_cons, show jsonStep JsonScanState.seekBrace c = JsonScanState.seekQuote by
             subst hc; decide]
          simp only [stFlags, jsonScanAux, hws, hc, if_false, if_pos, Bool.not_false, if_true]
          exact ih JsonScanState.seekQuote (by simp)
        · rw [List.foldl_cons, show jsonStep JsonScanState.seekBrace c = JsonScanState.failed by
            simp [jsonStep, hws, hc]]
          rw [foldl_jsonStep_failed]
          simp [stFlags, jsonScanAux, hws, hc, allFour]
      | seekQuote =>
        by_cases hc : c = '"'
        · rw [List.foldl_cons, show jsonStep JsonScanState.seekQuote c = JsonScanState.inKey by
             subst hc; decide]
          simp only [stFlags, jsonScanAux, hws, hc, if_false, Bool.not_false, Bool.not_true,
            if_true]
          exact ih JsonScanState.inKey (by simp)
        · rw [List.foldl_cons, show jsonStep JsonScanState.seekQuote c = JsonScanState.failed by
            simp [jsonStep, hws, hc]]
          rw [foldl_jsonStep_failed]
          simp [stFlags, jsonScanAux, hws, hc, allFour]
      | inKey =>
        by_cases hc : c = '"'
        · rw [List.foldl_cons, show jsonStep JsonScanState.inKey c = JsonScanState.seekColon by
             subst hc; decide]
          simp only [stFlags, jsonScanAux, hws, hc, if_false, Bool.not_false, Bool.not_true,
            if_true]
          exact ih JsonScanState.seekColon (by simp)
        · rw [List.foldl_cons, show jsonStep JsonScanState.inKey c = JsonScanState.inKey by
             simp [jsonStep, hws, hc]]
          simp only [stFlags, jsonScanAux, hws, hc, if_false, Bool.not_false, Bool.not_true,
            if_true]
          exact ih JsonScanState.inKey (by simp)
      | seekColon =>
        by_cases hc : c = ':'
        · rw [List.foldl_cons, show jsonStep JsonScanState.seekColon c = JsonScanState.matched by
             subst hc; decide]
          simp only [stFlags, jsonScanAux, hws, hc, if_false, Bool.not_false, Bool.not_true,
            if_true]
          exact ih JsonScanState.matched (by simp)
        · rw [List.foldl_cons, show jsonStep JsonScanState.seekColon c = JsonScanState.failed by
            simp [jsonStep, hws, hc]]
          rw [foldl_jsonStep_failed]
          simp [stFlags, jsonScanAux, hws, hc, allFour]
      | matched =>
        rw [List.foldl_cons, jsonStep_matched, foldl_jsonStep_matched]
        simp [stFlags, jsonScanAux, hws, allFour]
      | failed => exact absurd rfl hst

/-- Outside the empty-object special case, `maybe_json` computes exactly
the spec's state machine. -/
theorem maybe_json_eq_machine (s : List Char)
    (h : ¬(utf8Len s < 20 ∧ rustRemoveWhitespace s = ['{', '}'])) :
    maybe_json s = jsonSpecAccepts s := by
  unfold maybe_json
  rw [if_neg h]
  have hm := jsonScanAux_toMachine s JsonScanState.seekBrace (by simp)
  simp only [stFlags] at hm
  rw [Bool.eq_iff_iff]
  unfold jsonSpecAccepts
  simpa [allFour] using hm

/-- The machine ignores whitespace, so it only sees the whitespace-stripped
body. -/
theorem foldl_jsonStep_filter (s : List Char) (st : JsonScanState) :
    s.foldl jsonStep st = (rustRemoveWhitespace s).foldl jsonStep st := by
  induction s generalizing st with
  | nil => rfl
  | cons c t ih =>
    by_cases h : rustIsWhitespace c = true
    · rw [List.foldl_cons, jsonStep_of_ws h, show rustRemoveWhitespace (c :: t)
        = rustRemoveWhitespace t by simp [rustRemoveWhitespace, List.filter_cons, h]]
      exact ih st
    · rw [List.foldl_cons, show rustRemoveWhitespace (c :: t)
        = c :: rustRemoveWhitespace t by simp [rustRemoveWhitespace, List.filter_cons, h]]
      rw [List.foldl_cons]
      exact ih (jsonStep st c)

/-- A body whose non-whitespace content is exactly the brace pair is
rejected by the scan (the closing brace is not the quote the scanner
expects). -/
theorem maybe_json_braces_long (s : List Char)
    (hf : rustRemoveWhitespace s = ['{', '}']) (h20 : ¬ utf8Len s < 20) :
    maybe_json s = false := by
  rw [maybe_json_eq_machine s (by tauto)]
  unfold jsonSpecAccepts
  rw [foldl_jsonStep_filter, hf]
  decide

/-! Helper lemmas about the URL-encoded key scanner. -/

theorem validKeyChars_pct (c1 c2 : Char) (r : List Char) :
    validKeyChars ('%' :: c1 :: c2 :: r)
      = (isRustDigit c1 && isRustDigit c2 && validKeyChars r) := by
  simp only [validKeyChars]
  rw [if_pos trivial]

theorem validKeyChars_cons {c : Char} (hc : ¬ c = '%') (r : List Char) :
    validKeyChars (c :: r) = (isUrlKeyChar c && validKeyChars r) := by
  rw [validKeyChars.eq_def]
  show (if c = '%' then
      match r with
      | c1 :: c2 :: rest2 => isRustDigit c1 && isRustDigit c2 && validKeyChars rest2
      | _ => false
    else isUrlKeyChar c && validKeyChars r) = _
  rw [if_neg hc]

/-- A grammatical key followed by `=` is consumed in full, with no pending
escape digits. -/
theorem urlKeyScan_of_valid (k : List Char) (hv : validKeyChars k = true) (rest : List Char) :
    urlKeyScan (k ++ '=' :: rest) 0 = (k.length, 0) := by
  induction k using validKeyChars.induct with
  | case1 =>
    simp only [List.nil_append, urlKeyScan, List.length_nil]
    norm_num [show isUrlKeyChar '=' = false by decide, show ('=' : Char) ≠ '%' by decide]
  | case2 c1 c2 rest2 ih =>
    rw [validKeyChars_pct, Bool.and_eq_true, Bool.and_eq_true] at hv
    obtain ⟨⟨h1, h2⟩, h3⟩ := hv
    simp only [List.cons_append, urlKeyScan, h1, h2]
    norm_num [show isUrlKeyChar '%' = false by decide]
    rw [ih h3]
    exact ⟨rfl, rfl⟩
  | case3 rest hshape =>
    exfalso
    match rest, hshape with
    | [], _ =>
      rw [show validKeyChars ['%'] = false by decide] at hv
      exact Bool.noConfusion hv
    | [c1], _ =>
      rw [show validKeyChars ('%' :: [c1]) = false by
        simp only [validKeyChars]; rw [if_pos trivial]] at hv
      exact Bool.noConfusion hv
    | c1 :: c2 :: r, hshape => exact hshape c1 c2 r rfl
  | case4 c rest hc ih =>
    rw [validKeyChars_cons hc, Bool.and_eq_true] at hv
    obtain ⟨h1, h2⟩ := hv
    simp only [List.cons_append, urlKeyScan, h1]
    norm_num
    rw [ih h2]
    exact ⟨rfl, rfl⟩

/-- A scan started with two pending digits terminates cleanly only when the
next two characters are digits. -/
theorem urlKeyScan_two_digits (t : List Char) (m : Nat) (h : urlKeyScan t 2 = (m, 0)) :
    ∃ c1 c2 t2, t = c1 :: c2 :: t2 ∧ isRustDigit c1 = true ∧ isRustDigit c2 = true ∧
      urlKeyScan t2 0 = (m - 2, 0) ∧ 2 ≤ m := by
  match t with
  | [] => simp [urlKeyScan, Prod.ext_iff] at h
  | [c1] =>
    by_cases h1 : isRustDigit c1 = true <;>
      simp [urlKeyScan, h1, Prod.ext_iff] at h
  | c1 :: c2 :: t2 =>
    by_cases h1 : isRustDigit c1 = true
    · by_cases h2 : isRustDigit c2 = true
      · have hh : urlKeyScan (c1 :: c2 :: t2) 2
            = ((urlKeyScan t2 0).1 + 1 + 1, (urlKeyScan t2 0).2) := by
          simp [urlKeyScan, h1, h2]
        rw [hh, Prod.mk.injEq] at h
        obtain ⟨hm, hd⟩ := h
        refine ⟨c1, c2, t2, rfl, h1, h2, ?_, by omega⟩
        have h5 : (urlKeyScan t2 0).1 = m - 2 := by omega
        exact Prod.ext h5 hd
      · simp [urlKeyScan, h1, h2, Prod.ext_iff] at h
    · simp [urlKeyScan, h1, Prod.ext_iff] at h

/-- The consumed key run of a clean scan is grammatical (stated with an
explicit length bound for the strong induction). -/
theorem urlKeyScan_take_valid_bounded :
    ∀ (len : Nat) (s : List Char), s.length ≤ len → ∀ n, urlKeyScan s 0 = (n, 0) →
      validKeyChars (s.take n) = true := by
  intro len
  induction len with
  | zero =>
    intro s hs n h
    have hnil : s = [] := List.eq_nil_of_length_eq_zero (by omega)
    subst hnil
    rw [show urlKeyScan [] 0 = (0, 0) from rfl, Prod.mk.injEq] at h
    rw [← h.1]
    rfl
  | succ len ih =>
    intro s hs n h
    match s with
    | [] =>
      rw [show urlKeyScan [] 0 = (0, 0) from rfl, Prod.mk.injEq] at h
      rw [← h.1]
      rfl
    | c :: t =>
      by_cases h1 : isUrlKeyChar c = true
      · have hh : urlKeyScan (c :: t) 0 = ((urlKeyScan t 0).1 + 1, (urlKeyScan t 0).2) := by
          simp [urlKeyScan, h1]
        rw [hh, Prod.mk.injEq] at h
        obtain ⟨hn, hd⟩ := h
        have hv := ih t (by simp at hs; omega) (urlKeyScan t 0).1
          (Prod.ext rfl hd)
        rw [← hn, List.take_succ_cons]
        have hcp : ¬ c = '%' := by
          intro hcc
          rw [hcc] at h1
          exact absurd h1 (by decide)
        rw [validKeyChars_cons hcp, h1, hv]
        rfl
      · by_cases h2 : c = '%'
        · subst h2
          have hh : urlKeyScan ('%' :: t) 0 = ((urlKeyScan t 2).1 + 1, (urlKeyScan t 2).2) := by
            simp [urlKeyScan, h1]
          rw [hh, Prod.mk.injEq] at h
          obtain ⟨hn, hd⟩ := h
          obtain ⟨c1, c2, t2, ht, hd1, hd2, hscan, hm⟩ :=
            urlKeyScan_two_digits t (urlKeyScan t 2).1 (Prod.ext rfl hd)
          set m := (urlKeyScan t 2).1 with hmdef
          have ht2len : t2.length + 2 = t.length := by rw [ht]; simp
          have hv := ih t2 (by simp at hs; omega) _ hscan
          rw [← hn, ht]
          rw [show m + 1 = (((m - 2) + 1) + 1) + 1 by omega]
          rw [List.take_succ_cons, List.take_succ_cons, List.take_succ_cons]
          rw [validKeyChars_pct, hd1, hd2, hv]
          rfl
        · have hh : urlKeyScan (c :: t) 0 = (0, 0) := by
            simp [urlKeyScan, h1, h2]
          rw [hh, Prod.mk.injEq] at h
          rw [← h.1]
          rfl

/-- The consumed key run of a clean scan is grammatical. -/
theorem urlKeyScan_take_valid (s : List Char) (n : Nat) (h : urlKeyScan s 0 = (n, 0)) :
    validKeyChars (s.take n) = true :=
  urlKeyScan_take_valid_bounded s.length s (Nat.le_refl _) n h

/-- Unfolding of `maybe_url_encoded` into its three conditions. -/
theorem maybe_url_encoded_iff (s : List Char) :
    maybe_url_encoded s = true ↔
      (urlKeyScan s 0).1 ≠ 0 ∧ (urlKeyScan s 0).2 = 0 ∧
        s[(urlKeyScan s 0).1]? = some '=' := by
  unfold maybe_url_encoded
  by_cases h1 : (urlKeyScan s 0).1 = 0
  · simp [h1]
  · by_cases h2 : (urlKeyScan s 0).2 = 0
    · simp [h1, h2]
    · simp [h1, h2, (by omega : 0 < (urlKeyScan s 0).2)]

/-! The claims. -/

/-- C1: `guess_content_type` tries the JSON heuristic first, then the
URL-encoded one, then the multipart one, and otherwise falls back to Text;
the first match wins, so in particular a body passing the JSON heuristic is
classified Json no matter what the other heuristics say. -/
theorem guess_content_type_first_match (s : List Char) :
    (maybe_json s = true → guess_content_type s = ContentType.Json) ∧
    (maybe_json s = false → maybe_url_encoded s = true →
      guess_content_type s = ContentType.Form) ∧
    (maybe_json s = false → maybe_url_encoded s = false → is_multipart s = true →
      guess_content_type s = ContentType.Multipart) ∧
    (maybe_json s = false → maybe_url_encoded s = false → is_multipart s = false →
      guess_content_type s = ContentType.Text) := by
  refine ⟨fun h1 => ?_, fun h1 h2 => ?_, fun h1 h2 h3 => ?_, fun h1 h2 h3 => ?_⟩
  · simp [guess_content_type, h1]
  · simp [guess_content_type, h1, h2]
  · simp [guess_content_type, h1, h2, h3]
  · simp [guess_content_type, h1, h2, h3]

/-- C1 witness: the four dispatch branches at the spec's four examples. -/
theorem guess_content_type_first_match_witness :
    guess_content_type ['{', '}'] = ContentType.Json ∧
    guess_content_type "a=b".toList = ContentType.Form ∧
    guess_content_type "-----x".toList = ContentType.Multipart ∧
    guess_content_type "hello world".toList = ContentType.Text :=
  ⟨(guess_content_type_first_match ['{', '}']).1 (by decide),
   (guess_content_type_first_match "a=b".toList).2.1 (by decide) (by decide),
   (guess_content_type_first_match "-----x".toList).2.2.1 (by decide) (by decide) (by decide),
   (guess_content_type_first_match "hello world".toList).2.2.2
     (by decide) (by decide) (by decide)⟩

/-- C2 counterexample: six U+2000 whitespace characters followed by the
brace pair form a body of 8 characters (fewer than 20) whose
whitespace-stripped content is exactly the brace pair, yet `maybe_json`
rejects it, because Rust's `s.len()` counts 20 UTF-8 bytes. -/
theorem empty_object_char_threshold_counterexample :
    rustRemoveWhitespace (List.replicate 6 '\u2000' ++ ['{', '}']) = ['{', '}'] ∧
    (List.replicate 6 '\u2000' ++ ['{', '}']).length < 20 ∧
    maybe_json (List.replicate 6 '\u2000' ++ ['{', '}']) = false := by
  refine ⟨by decide, by decide, by decide⟩

/-- C2 (amended): for every body whose whitespace-stripped content is
exactly the brace pair, `maybe_json` returns true iff the UTF-8 byte length
of the body (Rust `s.len()`) is strictly less than 20. -/
theorem empty_object_byte_threshold (s : List Char)
    (hf : rustRemoveWhitespace s = ['{', '}']) :
    maybe_json s = true ↔ utf8Len s < 20 := by
  constructor
  · intro h
    by_contra h20
    rw [maybe_json_braces_long s hf h20] at h
    exact Bool.noConfusion h
  · intro h20
    unfold maybe_json
    rw [if_pos ⟨h20, hf⟩]

/-- C2 witness: the byte-length threshold evaluated on the spec's
short empty-object example. -/
theorem empty_object_byte_threshold_witness :
    rustRemoveWhitespace [' ', '{', ' ', '}', ' '] = ['{', '}'] ∧
    (maybe_json [' ', '{', ' ', '}', ' '] = true ↔
      utf8Len [' ', '{', ' ', '}', ' '] < 20) :=
  ⟨by decide, empty_object_byte_threshold [' ', '{', ' ', '}', ' '] (by decide)⟩

/-- C3: outside the empty-object special case, `maybe_json` accepts exactly
when a left-to-right whitespace-skipping scan finds an opening brace, an
opening quote, a closing quote (anything allowed between the quotes, no
escape handling) and a colon in that order, aborting on any other
non-whitespace character outside the key — as computed by the spec's state
machine — and the documented examples hold. -/
theorem json_scan_characterization :
    (∀ s : List Char, ¬(utf8Len s < 20 ∧ rustRemoveWhitespace s = ['{', '}']) →
      (maybe_json s = true ↔ jsonSpecAccepts s = true)) ∧
    maybe_json [] = false ∧
    maybe_json ['{', '"', 'a', '"', ':', '1', '}'] = true ∧
    maybe_json ['{', '"', 'a', '"', '}'] = false ∧
    maybe_json ['{', '1', ':', '"', 'a', '"', '}'] = false := by
  refine ⟨?_, by decide, by decide, by decide, by decide⟩
  intro s h
  rw [maybe_json_eq_machine s h]

/-- C3 witness: the equivalence instantiated at a body outside the special
case. -/
theorem json_scan_characterization_witness :
    maybe_json ['[', 'x'] = true ↔ jsonSpecAccepts ['[', 'x'] = true :=
  json_scan_characterization.1 ['[', 'x'] (by decide)

/-- C4: `maybe_url_encoded` accepts exactly the strings that decompose as a
non-empty grammatical key run followed immediately by `=`, where a key run
consists of ASCII letters, digits, `-`, `.`, `_`, `~`, `+`, and percent
signs each followed by exactly two ASCII digits (no escape left
incomplete); and the documented examples hold. -/
theorem url_encoded_key_characterization :
    (∀ s : List Char, maybe_url_encoded s = true ↔
      ∃ k rest, s = k ++ '=' :: rest ∧ k ≠ [] ∧ validKeyChars k = true) ∧
    maybe_url_encoded [] = false ∧
    maybe_url_encoded "a=b".toList = true ∧
    maybe_url_encoded "%2=".toList = false ∧
    maybe_url_encoded "#a=".toList = false ∧
    maybe_url_encoded "a-s.d_f~0+%21=".toList = true := by
  refine ⟨?_, by decide, by decide, by decide, by decide, by decide⟩
  intro s
  rw [maybe_url_encoded_iff]
  constructor
  · rintro ⟨h1, h2, h3⟩
    obtain ⟨hlt, hgot⟩ := List.getElem?_eq_some.mp h3
    refine ⟨s.take (urlKeyScan s 0).1, s.drop ((urlKeyScan s 0).1 + 1), ?_, ?_, ?_⟩
    · conv_lhs => rw [← List.take_append_drop (urlKeyScan s 0).1 s]
      congr 1
      rw [List.drop_eq_getElem_cons hlt]
      rw [hgot]
    · intro hemp
      have hlen := congrArg List.length hemp
      rw [List.length_take] at hlen
      rw [Nat.min_eq_left (Nat.le_of_lt hlt)] at hlen
      exact h1 hlen
    · exact urlKeyScan_take_valid s (urlKeyScan s 0).1 (Prod.ext rfl h2)
  · rintro ⟨k, rest, hs, hk, hv⟩
    subst hs
    have hscan := urlKeyScan_of_valid k hv rest
    rw [hscan]
    refine ⟨fun hz => hk (List.length_eq_zero.mp hz), rfl, ?_⟩
    rw [List.getElem?_append_right (Nat.le_refl k.length)]
    simp

/-- C5 counterexample: parsing the unknown method token `fetch` embeds the
uppercased text `FETCH`, not the offending input text `fetch`; likewise
the unknown content-type token `XML` embeds the lowercased `xml`. -/
theorem parse_error_text_counterexample :
    HttpMethod.from_str "fetch".toList
        = Except.error (Error.UnknownMethod "FETCH".toList) ∧
    "FETCH".toList ≠ "fetch".toList ∧
    ContentType.from_str "XML".toList
        = Except.error (Error.UnknownContentType "xml".toList) ∧
    "xml".toList ≠ "XML".toList := by
  refine ⟨rfl, by decide, rfl, by decide⟩

/-- C5 (amended): every token rejected by method parsing fails with an
UnknownMethod error embedding the uppercased input text, and every token
rejected by content-type parsing fails with an UnknownContentType error
embedding the lowercased input text. -/
theorem parse_error_embeds_normalized (s : List Char) :
    ((∀ m : HttpMethod, HttpMethod.from_str s ≠ Except.ok m) →
      HttpMethod.from_str s
        = Except.error (Error.UnknownMethod (s.map rustToUppercaseChar))) ∧
    ((∀ c : ContentType, ContentType.from_str s ≠ Except.ok c) →
      ContentType.from_str s
        = Except.error (Error.UnknownContentType (s.map rustToLowercaseChar))) := by
  constructor
  · intro h
    rcases (show (∃ m, HttpMethod.from_str s = Except.ok m) ∨ HttpMethod.from_str s
        = Except.error (Error.UnknownMethod (s.map rustToUppercaseChar)) by
      simp only [HttpMethod.from_str]
      split_ifs <;> first | exact Or.inl ⟨_, rfl⟩ | exact Or.inr rfl) with hm | he
    · obtain ⟨m, hm⟩ := hm
      exact absurd hm (h m)
    · exact he
  · intro h
    rcases (show (∃ c, ContentType.from_str s = Except.ok c) ∨ ContentType.from_str s
        = Except.error (Error.UnknownContentType (s.map rustToLowercaseChar)) by
      simp only [ContentType.from_str]
      split_ifs <;> first | exact Or.inl ⟨_, rfl⟩ | exact Or.inr rfl) with hc | he
    · obtain ⟨c, hc⟩ := hc
      exact absurd hc (h c)
    · exact he

/-- C5 witness: the amended statement applied to the two rejected tokens of
the counterexample. -/
theorem parse_error_embeds_normalized_witness :
    HttpMethod.from_str "fetch".toList
        = Except.error (Error.UnknownMethod ("fetch".toList.map rustToUppercaseChar)) ∧
    ContentType.from_str "XML".toList
        = Except.error (Error.UnknownContentType ("XML".toList.map rustToLowercaseChar)) :=
  ⟨(parse_error_embeds_normalized "fetch".toList).1 (fun _ hm =>
      Except.noConfusion ((show HttpMethod.from_str "fetch".toList
        = Except.error (Error.UnknownMethod "FETCH".toList) from rfl).symm.trans hm)),
   (parse_error_embeds_normalized "XML".toList).2 (fun _ hc =>
      Except.noConfusion ((show ContentType.from_str "XML".toList
        = Except.error (Error.UnknownContentType "xml".toList) from rfl).symm.trans hc))⟩

/-- C6: parsing the canonical MIME serialization of every ContentType
variant yields the variant back, and parsing the canonical upper-case name
of every HttpMethod variant yields the variant back. -/
theorem serialization_roundtrip :
    (∀ c : ContentType, ContentType.from_str (ContentType.fmt c) = Except.ok c) ∧
    (∀ m : HttpMethod, HttpMethod.from_str (HttpMethod.fmt m) = Except.ok m) := by
  constructor
  · intro c
    cases c <;> rfl
  · intro m
    cases m <;> rfl

/-- C7: after finalization, a supplied body with no explicitly supplied
content type gets exactly the guessed content type, and a finalized spec
never has a body present together with an unset content type; the
population step is a total function, so it cannot fail. -/
theorem finalized_content_type_populated (a : CliArgs) :
    (∀ b, a.data = some b → a.content_type = none →
      (args a).content_type = some (guess_content_type b)) ∧
    ((args a).data.isSome = true → (args a).content_type.isSome = true) := by
  constructor
  · intro b hb hct
    simp [args, hb, hct]
  · intro h
    rcases ha : a.data with _ | b
    · rw [show (args a).data = a.data from rfl, ha] at h
      exact Bool.noConfusion h
    · rcases hct : a.content_type with _ | c
      · simp [args, ha, hct]
      · simp [args, ha, hct]

/-- C7 witness: a concrete invocation with a body and no explicit content
type. -/
theorem finalized_content_type_populated_witness :
    (args (CliArgs.mk HttpMethod.Get none (some ['a']) ['x'])).content_type
        = some (guess_content_type ['a']) ∧
    (args (CliArgs.mk HttpMethod.Get none (some ['a']) ['x'])).content_type.isSome
        = true :=
  ⟨(finalized_content_type_populated (CliArgs.mk HttpMethod.Get none (some ['a']) ['x'])).1
      ['a'] rfl rfl,
   (finalized_content_type_populated (CliArgs.mk HttpMethod.Get none (some ['a']) ['x'])).2
      rfl⟩

/-- The recursive `startsWith` against a hyphen block measures the leading
hyphen run. -/
theorem startsWith_replicate_hyphens :
    ∀ (n : Nat) (s : List Char),
      startsWith s (List.replicate n '-') = true ↔
        n ≤ (s.takeWhile (fun c => c = '-')).length := by
  intro n
  induction n with
  | zero =>
    intro s
    simp [List.replicate, startsWith]
  | succ n ih =>
    intro s
    cases s with
    | nil =>
      rw [List.replicate_succ]
      simp [startsWith]
    | cons c t =>
      by_cases hc : c = '-'
      · subst hc
        rw [List.replicate_succ]
        simp only [startsWith, List.takeWhile_cons]
        simp [ih t]
      · rw [List.replicate_succ]
        simp [startsWith, List.takeWhile_cons, hc]

/-- C8: `is_multipart` accepts exactly the strings beginning with five or
more consecutive hyphen characters; the documented examples hold. -/
theorem multipart_five_hyphens :
    (∀ s : List Char, is_multipart s = true ↔
      5 ≤ (s.takeWhile (fun c => c = '-')).length) ∧
    is_multipart "-----abc".toList = true ∧
    is_multipart "----abc".toList = false := by
  refine ⟨?_, by decide, by decide⟩
  intro s
  exact startsWith_replicate_hyphens 5 s

/-- C9: the builder passes a URL that begins with http:// or https://
through unchanged and prepends http:// to every other URL. -/
theorem url_scheme_normalization (a : CliArgs) :
    ((startsWith a.url "http://".toList = true ∨
        startsWith a.url "https://".toList = true) →
      (args a).url = a.url) ∧
    (startsWith a.url "http://".toList = false →
      startsWith a.url "https://".toList = false →
      (args a).url = "http://".toList ++ a.url) := by
  have hu : (args a).url = (if !startsWith a.url "http://".toList
      && !startsWith a.url "https://".toList
    then "http://".toList ++ a.url else a.url) := rfl
  constructor
  · rintro (h | h)
    · rw [hu, h]
      rfl
    · rw [hu, h]
      simp
  · intro h1 h2
    rw [hu, h1, h2]
    rfl

/-- C9 witness: an already-schemed URL is kept, a bare one is prefixed. -/
theorem url_scheme_normalization_witness :
    (args (CliArgs.mk HttpMethod.Get none none "http://x".toList)).url
        = "http://x".toList ∧
    (args (CliArgs.mk HttpMethod.Get none none "x.com".toList)).url
        = "http://".toList ++ "x.com".toList :=
  ⟨(url_scheme_normalization (CliArgs.mk HttpMethod.Get none none "http://x".toList)).1
      (Or.inl (by decide)),
   (url_scheme_normalization (CliArgs.mk HttpMethod.Get none none "x.com".toList)).2
      (by decide) (by decide)⟩

/-- C10: the empty body fails all three heuristics, so its guessed content
type is the Text fallback. -/
theorem empty_body_guessed_text :
    guess_content_type [] = ContentType.Text ∧ maybe_json [] = false ∧
    maybe_url_encoded [] = false ∧ is_multipart [] = false := by
  decide

end Rq
